import Mathlib

/-!
Verification of the CNS11643 open-data sync scripts.

The Python sources are shallowly embedded below:
  - scripts/check_update.py : version-line parsing, the update decision
    procedure, and the main update-check flow (fetch, read metadata, emit
    outputs, exit code);
  - scripts/sync_cns11643.py : the sync loop with per-file failure
    isolation, ZIP extraction with CP437-to-Big5 filename repair, nested
    ZIP extraction, metadata/history update, release-version parsing;
  - scripts/verify_data.py : metadata verification.

Strings manipulated character-wise are represented as `List Char`
(Python `str` operations `split`, `in`, `strip` are translated to
structural recursion on the character list).  The file system fragment a
procedure touches is an association list from path to node, where a later
binding shadows an earlier one.  Remote fetches, the JSON parser and the
codec tables (CP437 / Big5) are external library calls: they enter the
embedding as explicit parameters (`Except` results, partial encode/decode
functions), while the repository's own control flow around them is
translated faithfully.
-/

/-! ## Character-list utilities (Python str.split / in / strip) -/

/-- Python `line.split(d)` for a single-character separator `d`:
split at every occurrence, keeping empty fields. -/
def splitChar (d : Char) : List Char → List (List Char)
  | [] => [[]]
  | c :: rest =>
    if c = d then [] :: splitChar d rest
    else
      match splitChar d rest with
      | [] => [[c]]
      | f :: fs => (c :: f) :: fs

/-- Python `pat in s`: substring containment. -/
def containsSub (pat : List Char) (s : List Char) : Bool :=
  match s with
  | [] => pat.isEmpty
  | _ :: rest => pat.isPrefixOf s || containsSub pat rest

/-- Python `s.strip()`: drop leading and trailing whitespace. -/
def pyStrip (s : List Char) : List Char :=
  ((s.dropWhile Char.isWhitespace).reverse.dropWhile Char.isWhitespace).reverse

/-! ## Version-line parsing

`check_update.get_remote_release_version` (lines 42-48) and
`sync_cns11643._parse_release_version` (lines 240-245) share the same
line-scanning logic:

    for line in ...:
        if '版本：' in line or '版本:' in line:
            parts = line.split('：') if '：' in line else line.split(':')
            if len(parts) >= 2:
                return parts[1].strip()
    return ''
-/

/-- The fullwidth version marker `版本：`. -/
def markerFull : List Char := ['版', '本', '：']

/-- The ASCII-colon version marker `版本:`. -/
def markerAscii : List Char := ['版', '本', ':']

/-- One loop iteration of the version scan: `some v` when the line matches
the marker and yields a version, `none` when the loop continues. -/
def parseVersionLine (line : List Char) : Option (List Char) :=
  if containsSub markerFull line || containsSub markerAscii line then
    let parts := if containsSub ['：'] line
      then splitChar '：' line else splitChar ':' line
    match parts with
    | _ :: p :: _ => some (pyStrip p)
    | _ => none
  else none

/-- The full scan over the lines of the release text: the first line whose
scan returns a version wins; otherwise the empty string. -/
def parseReleaseVersion (lines : List (List Char)) : List Char :=
  match lines with
  | [] => []
  | l :: rest =>
    match parseVersionLine l with
    | some v => v
    | none => parseReleaseVersion rest

/-- `sync_cns11643._parse_release_version`: the local on-disk variant
additionally returns the empty string when `release.txt` is absent
(`none`). -/
def parseReleaseVersionLocal (file : Option (List (List Char))) : List Char :=
  match file with
  | none => []
  | some lines => parseReleaseVersion lines

/-- Modelled from the spec: the spec reads the parser as returning "the
trimmed text after the first matching delimiter on the first matching
line"; this definition takes everything after the first occurrence of the
delimiter `d`, trimmed, to be compared with `parseVersionLine`. -/
def specTextAfterFirstDelim (d : Char) (line : List Char) : List Char :=
  pyStrip ((line.dropWhile (fun c => ¬ c = d)).drop 1)

/-- The segment of `line` strictly between the first occurrence of `d` and
the next occurrence (or the end of the line), trimmed: what the code
actually returns as `parts[1].strip()`. -/
def segmentBetweenDelims (d : Char) (line : List Char) : List Char :=
  pyStrip (((line.dropWhile (fun c => ¬ c = d)).drop 1).takeWhile (fun c => ¬ c = d))

/-! ## The update decision procedure (check_update.main, lines 96-111) -/

/-- The chained decision of `check_update.main`:

    if config.force_download: has_update = True
    elif not current_version: has_update = True
    elif api_modified_date != current_api_date: has_update = True
    elif remote_version != current_version: has_update = True
    else: pass
-/
def hasUpdate (forceDownload : Bool) (currentVersion currentApiDate
    apiModifiedDate remoteVersion : List Char) : Bool :=
  if forceDownload then true
  else if currentVersion = [] then true
  else if ¬ apiModifiedDate = currentApiDate then true
  else if ¬ remoteVersion = currentVersion then true
  else false

/-! ## Archive filename repair (sync_cns11643, lines 128-135 and 174-178)

    try:
        filename_bytes = info.filename.encode('cp437')
        correct_filename = filename_bytes.decode('big5')
    except (UnicodeDecodeError, UnicodeEncodeError):
        correct_filename = info.filename

The CP437 encoder and the Big5 decoder are Python codec tables, external
to the repository; they are passed in as partial functions (`none` models
the raised `UnicodeEncodeError` / `UnicodeDecodeError`). -/

/-- A byte string. -/
def ByteStr := List Nat

/-- The filename repair step with its fallback, verbatim from the source. -/
def fixFilename (enc : List Char → Option ByteStr)
    (dec : ByteStr → Option (List Char)) (name : List Char) : List Char :=
  match enc name with
  | none => name
  | some bs =>
    match dec bs with
    | none => name
    | some s => s

/-! ## File-system model

The contents of the directory a procedure works in: an association list
from a path (relative, `/`-separated) to a node; a later binding shadows
an earlier one. -/

instance : DecidableEq ByteStr := by
  unfold ByteStr; infer_instance

/-- A directory entry on disk. -/
inductive Node
  | dir
  | file (content : ByteStr)
deriving DecidableEq

/-- Directory contents: path-to-node bindings, newest first. -/
def Fs := List (List Char × Node)

instance : DecidableEq Fs := by
  unfold Fs; infer_instance

/-- Look a path up: the newest binding wins. -/
def fsLookup (fs : Fs) (p : List Char) : Option Node :=
  match fs with
  | [] => none
  | (q, n) :: rest => if q = p then some n else fsLookup rest p

/-- Write a node at a path (file writes overwrite unconditionally). -/
def fsSet (fs : Fs) (p : List Char) (n : Node) : Fs :=
  (p, n) :: fs

/-- Python `Path.mkdir(exist_ok=True)`: create the directory only when the
path is not already bound. -/
def fsMkdir (fs : Fs) (p : List Char) : Fs :=
  match fsLookup fs p with
  | some _ => fs
  | none => fsSet fs p .dir

/-- Python `Path.unlink()` of `p` (and nothing else). -/
def fsRemove (fs : Fs) (p : List Char) : Fs :=
  fs.filter (fun e => decide (¬ e.1 = p))

/-- The proper ancestors of a `/`-separated path, shortest first:
`parts/sub/b.png` has ancestors `parts` and `parts/sub`. -/
def pathAncestors (p : List Char) : List (List Char) :=
  let comps := splitChar '/' p
  (List.range (comps.length - 1)).map
    (fun k => List.intercalate ['/'] (comps.take (k + 1)))

/-- Python `Path.mkdir(parents=True, exist_ok=True)`: create the missing
ancestors, shortest first, then the path itself. -/
def fsMkdirParents (fs : Fs) (p : List Char) : Fs :=
  fsMkdir ((pathAncestors p).foldl fsMkdir fs) p

/-! ## ZIP extraction (sync_cns11643, lines 117-150 and 167-189) -/

/-- One entry of a ZIP archive as `zipfile` reports it: the stored name
(as decoded by the library), whether it is a directory, and the raw
bytes. -/
structure ZipEntry where
  filename : List Char
  isDir : Bool
  content : ByteStr
deriving DecidableEq

/-- Processing of a single archive entry, shared verbatim by
`_extract_zip` and `_extract_nested_zip_preserve_structure`: fix the
name, then either create the directory (with parents) or create the
parent directories and write the file bytes. -/
def writeEntry (enc : List Char → Option ByteStr)
    (dec : ByteStr → Option (List Char)) (fs : Fs) (e : ZipEntry) : Fs :=
  let name := fixFilename enc dec e.filename
  if e.isDir then
    fsMkdirParents fs name
  else
    fsSet ((pathAncestors name).foldl fsMkdir fs) name (.file e.content)

/-- The `shutil.rmtree` / `mkdir` preamble of `_extract_zip`: if the
destination directory exists (has contents), remove it; recreate it
empty. -/
def clearDest (destContents : Fs) : Fs :=
  if destContents = [] then destContents else []

/-- `_extract_zip`: clear the destination, then write every entry. -/
def extractZip (enc : List Char → Option ByteStr)
    (dec : ByteStr → Option (List Char)) (entries : List ZipEntry)
    (destContents : Fs) : Fs :=
  entries.foldl (writeEntry enc dec) (clearDest destContents)

/-- `_extract_nested_zip_preserve_structure`: write every entry into the
destination as it stands, never clearing it. -/
def extractNestedZipPreserve (enc : List Char → Option ByteStr)
    (dec : ByteStr → Option (List Char)) (entries : List ZipEntry)
    (destContents : Fs) : Fs :=
  entries.foldl (writeEntry enc dec) destContents

/-- The body of the `_extract_nested_zips` loop for a nested archive that
exists at `zipPath`: extract it in place, then delete the archive file. -/
def nestedExtractAndDelete (enc : List Char → Option ByteStr)
    (dec : ByteStr → Option (List Char)) (zipPath : List Char)
    (entries : List ZipEntry) (destContents : Fs) : Fs :=
  fsRemove (extractNestedZipPreserve enc dec entries destContents) zipPath

/-! ## The sync loop (sync_cns11643.sync, lines 34-61; _download_and_process,
lines 63-115)

The network, hashing and extraction work of `_download_and_process` sits
inside one `try`; any exception there is caught at the file's boundary
and converted into `None`.  The environment is passed in as an oracle
from filename to the outcome of that body. -/

/-- What `_download_and_process` records for a successful file:
`{'sha256': ..., 'size': ..., 'downloaded_at': ...}`. -/
structure FileInfo where
  sha256 : List Char
  size : Nat
  downloadedAt : List Char
deriving DecidableEq

/-- `_download_and_process`: the whole body is wrapped in
`try ... except: return None`, so an exception yields no result. -/
def downloadAndProcess (oracle : List Char → Except (List Char) FileInfo)
    (filename : List Char) : Option FileInfo :=
  match oracle filename with
  | .ok info => some info
  | .error _ => none

/-- The download loop of `sync`: files are processed independently in the
order given, successful results accumulated under their filename. -/
def syncDownloadedFiles (oracle : List Char → Except (List Char) FileInfo)
    (files : List (List Char)) : List (List Char × FileInfo) :=
  files.foldl
    (fun acc f =>
      match downloadAndProcess oracle f with
      | some info => acc ++ [(f, info)]
      | none => acc)
    []

/-- The overall result of `sync`: `False` exactly when `downloaded_files`
stayed empty, `True` otherwise (after which metadata is updated). -/
def syncResult (oracle : List Char → Except (List Char) FileInfo)
    (files : List (List Char)) : Bool :=
  ¬ syncDownloadedFiles oracle files = []

/-! ## Metadata update (sync_cns11643._update_metadata, lines 198-230) -/

/-- One entry of `sync_history`. -/
structure HistoryEntry where
  date : List Char
  previousVersion : List Char
  newVersion : List Char
  changedFiles : List (List Char)
deriving DecidableEq

/-- The persisted metadata record.  Fields a JSON file may lack read as
their defaults (`metadata.get(..., '')` / `metadata.get('sync_history', [])`). -/
structure Metadata where
  lastSync : List Char
  apiModifiedDate : List Char
  releaseVersion : List Char
  files : List (List Char × FileInfo)
  syncHistory : List HistoryEntry
deriving DecidableEq

/-- `_load_metadata`'s default for an absent file: `{'sync_history': []}`. -/
def defaultMetadata : Metadata :=
  { lastSync := [], apiModifiedDate := [], releaseVersion := [],
    files := [], syncHistory := [] }

/-- `_update_metadata`: build the history entry from the pre-update
record, overwrite the top-level fields, prepend the entry and keep the
most recent 10.  `now` is the timestamp, `apiDate` the environment's
`API_MODIFIED_DATE`, `relVer` the result of `_parse_release_version`. -/
def updateMetadata (m : Metadata) (downloaded : List (List Char × FileInfo))
    (now apiDate relVer : List Char) : Metadata :=
  let entry : HistoryEntry :=
    { date := now, previousVersion := m.releaseVersion,
      newVersion := relVer, changedFiles := downloaded.map Prod.fst }
  { lastSync := now, apiModifiedDate := apiDate, releaseVersion := relVer,
    files := downloaded, syncHistory := (entry :: m.syncHistory).take 10 }

/-- The external inputs of one `_update_metadata` call. -/
structure SyncInput where
  downloaded : List (List Char × FileInfo)
  now : List Char
  apiDate : List Char
  relVer : List Char

/-- One sync's metadata update, as a fold step over a run of syncs. -/
def applySync (m : Metadata) (i : SyncInput) : Metadata :=
  updateMetadata m i.downloaded i.now i.apiDate i.relVer

/-! ## Metadata readers (check_update.get_current_metadata, lines 51-56;
sync_cns11643._load_metadata, lines 191-196; verify_data.verify_metadata,
lines 74-84)

Each reader checks only for the *file's existence*; when the file exists
its contents go straight through `json.load`, whose outcome (a value, or
a raised decode error) is passed in as an `Except`. -/

/-- A parsed JSON object restricted to its string-valued fields, as
`check_update.main` reads it. -/
def MetaDict := List (List Char × List Char)

/-- Python `metadata.get(key, '')`. -/
def metaGet (m : MetaDict) (key : List Char) : List Char :=
  match m with
  | [] => []
  | (k, v) :: rest => if k = key then v else metaGet rest key

/-- `check_update.get_current_metadata`: empty mapping when the file does
not exist; otherwise the `json.load` outcome, raised errors included. -/
def getCurrentMetadata (fileContents : Option (Except Unit MetaDict)) :
    Except Unit MetaDict :=
  match fileContents with
  | none => .ok []
  | some r => r

/-- `sync_cns11643._load_metadata`: `{'sync_history': []}` when the file
does not exist; otherwise the `json.load` outcome, raised errors
included. -/
def loadMetadata (fileContents : Option (Except Unit Metadata)) :
    Except Unit Metadata :=
  match fileContents with
  | none => .ok defaultMetadata
  | some r => r

/-- `verify_data.verify_metadata`: a missing file is an error *entry*; an
existing file goes through `json.load` (raised errors propagate), then a
missing or empty `release_version` is an error entry. -/
def verifyMetadata (fileContents : Option (Except Unit MetaDict)) :
    Except Unit (List (List Char)) :=
  match fileContents with
  | none => .ok ["缺少元資料檔案：sync_metadata.json".data]
  | some (.error e) => .error e
  | some (.ok m) =>
    .ok (if metaGet m "release_version".data = []
      then ["元資料缺少版本資訊".data] else [])

/-! ## The update-check flow (check_update.main, lines 70-119)

Only the two remote fetches sit inside the `try`; the metadata read
happens after it, unprotected.  The fetches are passed in as one
`Except` (the first raised exception aborts both), the metadata file's
parse outcome as in `getCurrentMetadata`. -/

/-- Python `str(has_update).lower()`. -/
def boolStr (b : Bool) : List Char :=
  if b then "true".data else "false".data

/-- What a finished run of `check_update.main` produced: the
`set_github_output` key-value pairs in order, and the return code. -/
structure CheckOutcome where
  outputs : List (List Char × List Char)
  exitCode : Nat
deriving DecidableEq

/-- `check_update.main`.  `fetched` is the joint outcome of
`get_api_modified_date` and `get_remote_release_version`; a raised
exception there is caught and yields the single `has_update=false`
output with exit code 1.  `metaRead` is the `get_current_metadata`
argument; a decode error raised there propagates out of `main`
(`.error`: the process crashes with a traceback). -/
def mainCheck (forceDownload : Bool)
    (fetched : Except Unit (List Char × List Char))
    (metaRead : Option (Except Unit MetaDict)) : Except Unit CheckOutcome :=
  match fetched with
  | .error _ => .ok { outputs := [("has_update".data, "false".data)], exitCode := 1 }
  | .ok (apiModifiedDate, remoteVersion) =>
    match getCurrentMetadata metaRead with
    | .error e => .error e
    | .ok metadata =>
      let currentVersion := metaGet metadata "release_version".data
      let currentApiDate := metaGet metadata "api_modified_date".data
      let hu := hasUpdate forceDownload currentVersion currentApiDate
        apiModifiedDate remoteVersion
      .ok ⟨[("has_update".data, boolStr hu),
            ("new_version".data, remoteVersion),
            ("current_version".data, currentVersion),
            ("api_modified_date".data, apiModifiedDate)], 0⟩

/-! ## Helper lemmas -/

/-- `containsSub` decides the infix relation. -/
lemma containsSub_spec (pat : List Char) :
    ∀ s : List Char, containsSub pat s = true ↔ pat <:+: s := by
  intro s
  induction s with
  | nil =>
    simp [containsSub, List.isEmpty_iff, List.infix_nil]
  | cons c rest ih =>
    simp only [containsSub, Bool.or_eq_true, ih, List.infix_cons_iff,
      List.isPrefixOf_iff_prefix]

/-- A substring of a contained pattern is contained. -/
lemma containsSub_of_append (p q s : List Char)
    (h : containsSub (p ++ q) s = true) : containsSub q s = true := by
  rw [containsSub_spec] at h ⊢
  exact ((List.suffix_append p q).isInfix).trans h

/-- `splitChar` never returns the empty list. -/
lemma splitChar_ne_nil (d : Char) : ∀ line : List Char, ¬ splitChar d line = [] := by
  intro line
  induction line with
  | nil => simp [splitChar]
  | cons c rest ih =>
    by_cases h : c = d
    · simp [splitChar, h]
    · simp only [splitChar, if_neg h]
      cases hs : splitChar d rest with
      | nil => exact absurd hs ih
      | cons f fs => simp

/-- The head of `splitChar` is the run before the first separator; the tail
is the split of what follows it, empty when the separator is absent. -/
lemma splitChar_eq (d : Char) : ∀ line : List Char,
    splitChar d line =
      line.takeWhile (fun c => ¬ c = d) ::
        (if containsSub [d] line
          then splitChar d ((line.dropWhile (fun c => ¬ c = d)).drop 1)
          else []) := by
  intro line
  induction line with
  | nil => simp [splitChar, containsSub]
  | cons c rest ih =>
    by_cases h : c = d
    · subst h
      simp [splitChar, containsSub, List.isPrefixOf, List.takeWhile, List.dropWhile]
    · have hpre : ([d].isPrefixOf (c :: rest)) = false := by
        simp [List.isPrefixOf]
        intro hdc
        exact absurd hdc.symm h
      simp only [splitChar, if_neg h]
      rw [ih]
      have hcontains : containsSub [d] (c :: rest) = containsSub [d] rest := by
        simp [containsSub, hpre]
      by_cases hc : containsSub [d] rest = true
      · simp only [hc, if_pos, hcontains]
        simp [List.takeWhile, List.dropWhile, h]
      · rw [hcontains]
        simp only [Bool.not_eq_true] at hc
        simp [hc, List.takeWhile, h]

/-- When the separator occurs, the split has a second field: the run
between the first separator and the next. -/
lemma splitChar_of_contains (d : Char) (line : List Char)
    (h : containsSub [d] line = true) :
    ∃ tail, splitChar d line =
      line.takeWhile (fun c => ¬ c = d) ::
        (((line.dropWhile (fun c => ¬ c = d)).drop 1).takeWhile (fun c => ¬ c = d))
        :: tail := by
  rw [splitChar_eq d line, if_pos h]
  rcases hs : splitChar d ((line.dropWhile (fun c => ¬ c = d)).drop 1) with _ | ⟨f, fs⟩
  · exact absurd hs (splitChar_ne_nil d _)
  · have := splitChar_eq d ((line.dropWhile (fun c => ¬ c = d)).drop 1)
    rw [hs] at this
    refine ⟨fs, ?_⟩
    rw [List.cons.injEq] at this
    rw [this.1.symm]

/-- `fsSet` leaves other paths alone. -/
lemma fsLookup_fsSet_ne (fs : Fs) (p q : List Char) (n : Node) (h : ¬ q = p) :
    fsLookup (fsSet fs p n) q = fsLookup fs q := by
  show (if p = q then some n else fsLookup fs q) = fsLookup fs q
  exact if_neg (fun hh => h hh.symm)

/-- `fsSet` binds the written path. -/
lemma fsLookup_fsSet_self (fs : Fs) (p : List Char) (n : Node) :
    fsLookup (fsSet fs p n) p = some n := by
  simp [fsSet, fsLookup]

/-- `fsMkdir` never disturbs an existing binding. -/
lemma fsLookup_fsMkdir_of_some (fs : Fs) (p q : List Char) (n : Node)
    (h : fsLookup fs p = some n) : fsLookup (fsMkdir fs q) p = some n := by
  unfold fsMkdir
  cases hq : fsLookup fs q with
  | some m => exact h
  | none =>
    by_cases hpq : q = p
    · subst hpq; rw [hq] at h; cases h
    · rw [fsLookup_fsSet_ne fs q p .dir (fun hh => hpq hh.symm)] -- q set, lookup p
      exact h

/-- A fold of `fsMkdir` calls never disturbs an existing binding. -/
lemma fsLookup_foldl_fsMkdir_of_some (l : List (List Char)) :
    ∀ (fs : Fs) (p : List Char) (n : Node), fsLookup fs p = some n →
      fsLookup (l.foldl fsMkdir fs) p = some n := by
  induction l with
  | nil => intro fs p n h; exact h
  | cons q rest ih =>
    intro fs p n h
    exact ih (fsMkdir fs q) p n (fsLookup_fsMkdir_of_some fs p q n h)

/-- `writeEntry` never disturbs an existing binding at a path other than
the (repaired) entry name. -/
lemma fsLookup_writeEntry_of_some (enc : List Char → Option ByteStr)
    (dec : ByteStr → Option (List Char)) (fs : Fs) (e : ZipEntry)
    (p : List Char) (n : Node) (h : fsLookup fs p = some n)
    (hne : ¬ p = fixFilename enc dec e.filename) :
    fsLookup (writeEntry enc dec fs e) p = some n := by
  unfold writeEntry
  by_cases hd : e.isDir
  · simp only [hd, if_pos]
    unfold fsMkdirParents
    exact fsLookup_fsMkdir_of_some _ p _ n
      (fsLookup_foldl_fsMkdir_of_some _ fs p n h)
  · simp only [hd, if_neg, Bool.false_eq_true, not_false_eq_true]
    rw [fsLookup_fsSet_ne _ _ _ _ hne]
    exact fsLookup_foldl_fsMkdir_of_some _ fs p n h

/-- A fold of `writeEntry` calls never disturbs an existing binding at a
path that is no entry's (repaired) name. -/
lemma fsLookup_foldl_writeEntry_of_some (enc : List Char → Option ByteStr)
    (dec : ByteStr → Option (List Char)) (entries : List ZipEntry) :
    ∀ (fs : Fs) (p : List Char) (n : Node), fsLookup fs p = some n →
      (¬ p ∈ entries.map (fun e => fixFilename enc dec e.filename)) →
      fsLookup (entries.foldl (writeEntry enc dec) fs) p = some n := by
  induction entries with
  | nil => intro fs p n h _; exact h
  | cons e rest ih =>
    intro fs p n h hmem
    simp only [List.map_cons, List.mem_cons, not_or] at hmem
    exact ih (writeEntry enc dec fs e) p n
      (fsLookup_writeEntry_of_some enc dec fs e p n h hmem.1) (by
        intro hc
        exact hmem.2 hc)

/-- `fsRemove` erases exactly the removed path. -/
lemma fsLookup_fsRemove (p : List Char) :
    ∀ (fs : Fs) (q : List Char),
      fsLookup (fsRemove fs p) q = if q = p then none else fsLookup fs q := by
  intro fs
  induction fs with
  | nil =>
    intro q
    simp only [fsRemove, List.filter_nil]
    show (none : Option Node) = if q = p then none else none
    rw [ite_self]
  | cons e rest ih =>
    intro q
    obtain ⟨r, n⟩ := e
    show fsLookup (((r, n) :: rest).filter (fun e => decide (¬ e.1 = p))) q = _
    rw [List.filter_cons]
    by_cases hrp : r = p
    · rw [if_neg (by simp [hrp])]
      have hrest : fsLookup (rest.filter (fun e => decide (¬ e.1 = p))) q =
          if q = p then none else fsLookup rest q := ih q
      rw [show rest.filter (fun e => decide (¬ e.1 = p)) = fsRemove rest p from rfl]
        at hrest
      rw [show (rest.filter (fun e => decide (¬ e.1 = p)) : Fs) = fsRemove rest p
        from rfl]
      rw [hrest]
      by_cases hqp : q = p
      · rw [if_pos hqp, if_pos hqp]
      · rw [if_neg hqp, if_neg hqp]
        show fsLookup rest q = if r = q then some n else fsLookup rest q
        rw [if_neg (fun hh => hqp (hh.symm.trans hrp))]
    · rw [if_pos (by simp [hrp])]
      show (if r = q then some n else
          fsLookup (rest.filter (fun e => decide (¬ e.1 = p))) q) = _
      rw [show (rest.filter (fun e => decide (¬ e.1 = p)) : Fs) = fsRemove rest p
        from rfl]
      rw [ih q]
      by_cases hrq : r = q
      · rw [if_pos hrq, if_neg (fun hh => hrp (hrq.trans hh)),
          show fsLookup ((r, n) :: rest) q = if r = q then some n else fsLookup rest q
            from rfl,
          if_pos hrq]
      · rw [if_neg hrq]
        by_cases hqp : q = p
        · rw [if_pos hqp, if_pos hqp]
        · rw [if_neg hqp, if_neg hqp]
          show fsLookup rest q = if r = q then some n else fsLookup rest q
          rw [if_neg hrq]

/-- After writing a file entry, its (repaired) name holds its bytes. -/
lemma fsLookup_writeEntry_self (enc : List Char → Option ByteStr)
    (dec : ByteStr → Option (List Char)) (fs : Fs) (e : ZipEntry)
    (hfile : e.isDir = false) :
    fsLookup (writeEntry enc dec fs e) (fixFilename enc dec e.filename) =
      some (.file e.content) := by
  unfold writeEntry
  rw [hfile]
  simp only [Bool.false_eq_true, if_neg, not_false_eq_true]
  exact fsLookup_fsSet_self _ _ _

/-- Every file entry of a fold of `writeEntry` calls ends up present under
its (repaired) name with its bytes, provided the repaired names do not
collide. -/
lemma fsLookup_foldl_writeEntry_mem (enc : List Char → Option ByteStr)
    (dec : ByteStr → Option (List Char)) (entries : List ZipEntry) :
    ∀ fs : Fs, (entries.map (fun e => fixFilename enc dec e.filename)).Nodup →
      ∀ e ∈ entries, e.isDir = false →
        fsLookup (entries.foldl (writeEntry enc dec) fs)
          (fixFilename enc dec e.filename) = some (.file e.content) := by
  induction entries with
  | nil => intro fs _ e he; cases he
  | cons e0 rest ih =>
    intro fs hnodup e he hfile
    simp only [List.map_cons, List.nodup_cons] at hnodup
    rcases List.mem_cons.mp he with he | he
    · subst he
      simp only [List.foldl_cons]
      exact fsLookup_foldl_writeEntry_of_some enc dec rest
        (writeEntry enc dec fs e) _ _
        (fsLookup_writeEntry_self enc dec fs e hfile) hnodup.1
    · simp only [List.foldl_cons]
      exact ih (writeEntry enc dec fs e0) hnodup.2 e he hfile

/-- The download loop accumulates exactly the successful files, in order. -/
lemma syncDownloadedFiles_eq_filterMap
    (oracle : List Char → Except (List Char) FileInfo) :
    ∀ (files : List (List Char)) (acc : List (List Char × FileInfo)),
      files.foldl
        (fun acc f =>
          match downloadAndProcess oracle f with
          | some info => acc ++ [(f, info)]
          | none => acc)
        acc =
      acc ++ files.filterMap
        (fun f => (downloadAndProcess oracle f).map (fun i => (f, i))) := by
  intro files
  induction files with
  | nil => intro acc; simp
  | cons f rest ih =>
    intro acc
    simp only [List.foldl_cons, List.filterMap_cons]
    cases h : downloadAndProcess oracle f with
    | some info => simp only [h, Option.map_some]; rw [ih]; simp
    | none => simp only [h]; rw [ih]; rfl

/-- The length of the history after one metadata update. -/
lemma updateMetadata_history_length (m : Metadata)
    (downloaded : List (List Char × FileInfo)) (now apiDate relVer : List Char) :
    (updateMetadata m downloaded now apiDate relVer).syncHistory.length =
      min 10 (m.syncHistory.length + 1) := by
  simp [updateMetadata, List.length_take]
  omega

/-- The length of the history after a run of metadata updates, starting
from a record whose history is within bounds. -/
lemma foldl_applySync_history_length (ins : List SyncInput) :
    ∀ m0 : Metadata, m0.syncHistory.length ≤ 10 →
      ((ins.foldl applySync m0).syncHistory).length =
        min 10 (m0.syncHistory.length + ins.length) := by
  induction ins with
  | nil => intro m0 h; simp; omega
  | cons i rest ih =>
    intro m0 h
    simp only [List.foldl_cons, List.length_cons]
    have h1 : (applySync m0 i).syncHistory.length =
        min 10 (m0.syncHistory.length + 1) :=
      updateMetadata_history_length m0 i.downloaded i.now i.apiDate i.relVer
    rw [ih (applySync m0 i) (by omega), h1]
    omega

/-! ## Claim theorems -/

/-- Claim C1: for every force flag, locally recorded version and
modified-date, remote modified-date and remote parsed version, the
checker decides that an update is needed exactly when the force flag is
set, or no local version is recorded, or the remote modified-date differs
from the recorded one, or the remote version differs from the recorded
one; otherwise it decides no update. -/
theorem update_decision_procedure (forceDownload : Bool)
    (currentVersion currentApiDate apiModifiedDate remoteVersion : List Char) :
    hasUpdate forceDownload currentVersion currentApiDate
        apiModifiedDate remoteVersion =
      (forceDownload || decide (currentVersion = []) ||
        decide (¬ apiModifiedDate = currentApiDate) ||
        decide (¬ remoteVersion = currentVersion)) := by
  unfold hasUpdate
  by_cases hf : forceDownload <;>
    by_cases h1 : currentVersion = [] <;>
      by_cases h2 : apiModifiedDate = currentApiDate <;>
        by_cases h3 : remoteVersion = currentVersion <;>
          simp [hf, h1, h2, h3]

/-- Claim C5: whenever an exception is raised during the remote fetches,
the check aborts with the decision forced to false and a non-zero exit
code: the only emitted output is the negative decision, and the process
returns 1. -/
theorem update_check_fail_safe (forceDownload : Bool)
    (metaRead : Option (Except Unit MetaDict)) (e : Unit) :
    mainCheck forceDownload (.error e) metaRead =
        .ok ⟨[("has_update".data, "false".data)], 1⟩ ∧
      ∀ out, mainCheck forceDownload (.error e) metaRead = .ok out →
        ¬ out.exitCode = 0 := by
  refine ⟨rfl, ?_⟩
  intro out hout
  cases hout
  decide

/-- Claim C6 counterexample: on a run whose remote fetch raises, only the
decision output is emitted — one output, not four — even though a
decision (false) is reached, so the four values are not emitted on every
run. -/
theorem update_check_outputs_counterexample :
    mainCheck true (.error ()) none =
        .ok ⟨[("has_update".data, "false".data)], 1⟩ ∧
      ([("has_update".data, "false".data)] :
          List (List Char × List Char)).length = 1 ∧
      ¬ "new_version".data ∈
        ([("has_update".data, "false".data)] :
          List (List Char × List Char)).map Prod.fst := by
  refine ⟨rfl, rfl, ?_⟩
  decide

/-- Claim C6 (amended): on every run in which the remote fetches succeed
and the metadata read does not raise — whether the metadata file is
absent or parses — all four output values (decision, remote version,
local version, remote modified-date) are emitted, in that order,
regardless of the decision reached. -/
theorem update_check_outputs_complete :
    (∀ (forceDownload : Bool) (apiDate remoteVer : List Char) (m : MetaDict),
      ∃ out, mainCheck forceDownload (.ok (apiDate, remoteVer)) (some (.ok m)) =
          .ok out ∧
        out.outputs.map Prod.fst =
          ["has_update".data, "new_version".data,
           "current_version".data, "api_modified_date".data] ∧
        out.outputs =
          [("has_update".data, boolStr (hasUpdate forceDownload
              (metaGet m "release_version".data)
              (metaGet m "api_modified_date".data) apiDate remoteVer)),
           ("new_version".data, remoteVer),
           ("current_version".data, metaGet m "release_version".data),
           ("api_modified_date".data, apiDate)] ∧
        out.exitCode = 0) ∧
    (∀ (forceDownload : Bool) (apiDate remoteVer : List Char),
      ∃ out, mainCheck forceDownload (.ok (apiDate, remoteVer)) none = .ok out ∧
        out.outputs.map Prod.fst =
          ["has_update".data, "new_version".data,
           "current_version".data, "api_modified_date".data] ∧
        out.exitCode = 0) := by
  constructor
  · intro forceDownload apiDate remoteVer m
    exact ⟨_, rfl, rfl, rfl, rfl⟩
  · intro forceDownload apiDate remoteVer
    exact ⟨_, rfl, rfl, rfl⟩

/-- Claim C7: sync processes the configured files independently in the
order given; an exception in one file's download/processing is caught at
that file's boundary and yields no result for that file; the overall sync
fails exactly when zero files succeeded. -/
theorem sync_failure_isolation
    (oracle : List Char → Except (List Char) FileInfo)
    (files : List (List Char)) :
    syncDownloadedFiles oracle files =
        files.filterMap
          (fun f => (downloadAndProcess oracle f).map (fun i => (f, i))) ∧
      (∀ (f e : List Char), oracle f = .error e →
        downloadAndProcess oracle f = none) ∧
      (syncResult oracle files = false ↔
        ∀ f ∈ files, downloadAndProcess oracle f = none) := by
  refine ⟨?_, ?_, ?_⟩
  · simpa using syncDownloadedFiles_eq_filterMap oracle files []
  · intro f e h
    simp [downloadAndProcess, h]
  · unfold syncResult
    rw [show syncDownloadedFiles oracle files =
        files.filterMap
          (fun f => (downloadAndProcess oracle f).map (fun i => (f, i)))
      from by simpa using syncDownloadedFiles_eq_filterMap oracle files []]
    simp only [decide_not, Bool.not_eq_false', decide_eq_true_eq,
      List.filterMap_eq_nil_iff]
    constructor
    · intro h f hf
      have := h f hf
      cases hd : downloadAndProcess oracle f with
      | none => rfl
      | some i => rw [hd] at this; cases this
    · intro h f hf
      rw [h f hf]
      rfl

/-- Claim C7 witness: a file whose processing raises yields no result. -/
theorem sync_failure_isolation_witness :
    downloadAndProcess (fun _ => .error "boom".data) "release.txt".data = none :=
  (sync_failure_isolation (fun _ => .error "boom".data)
    ["release.txt".data]).2.1 "release.txt".data "boom".data rfl

/-- Claim C8 counterexample: with the metadata file present but its JSON
malformed, each of the three readers propagates the decode error instead
of returning the empty mapping or default record, and the enclosing
update check crashes rather than completing. -/
theorem malformed_metadata_counterexample :
    getCurrentMetadata (some (.error ())) = .error () ∧
      ¬ getCurrentMetadata (some (.error ())) = .ok [] ∧
      loadMetadata (some (.error ())) = .error () ∧
      ¬ loadMetadata (some (.error ())) = .ok defaultMetadata ∧
      verifyMetadata (some (.error ())) = .error () ∧
      mainCheck false (.ok ("d".data, "v".data)) (some (.error ())) =
        .error () := by
  refine ⟨rfl, ?_, rfl, ?_, rfl, rfl⟩
  · intro h; cases h
  · intro h; cases h

/-- Claim C8 (amended): an absent metadata file is treated as absent —
the checker's reader returns the empty mapping, the syncer's reader the
default record, the verifier a missing-file error entry — but an existing
file's JSON parse outcome passes through unchanged: malformed JSON raises
and the raised error is fatal to the enclosing operation. -/
theorem malformed_metadata_amended :
    getCurrentMetadata none = .ok [] ∧
      loadMetadata none = .ok defaultMetadata ∧
      verifyMetadata none = .ok ["缺少元資料檔案：sync_metadata.json".data] ∧
      (∀ r, getCurrentMetadata (some r) = r) ∧
      (∀ r, loadMetadata (some r) = r) ∧
      (∀ e, verifyMetadata (some (.error e)) = .error e) ∧
      (∀ (forceDownload : Bool) (apiDate remoteVer : List Char) (e : Unit),
        mainCheck forceDownload (.ok (apiDate, remoteVer)) (some (.error e)) =
          .error e) := by
  exact ⟨rfl, rfl, rfl, fun r => rfl, fun r => rfl, fun e => rfl,
    fun _ _ _ _ => rfl⟩

/-- Claim C9: top-level extraction clears the destination first, so its
result does not depend on the destination's previous contents, and
extracting the same archive twice into the same destination yields
exactly the contents of a single extraction. -/
theorem extract_zip_idempotent (enc : List Char → Option ByteStr)
    (dec : ByteStr → Option (List Char)) (entries : List ZipEntry) :
    (∀ destContents destContents' : Fs,
      extractZip enc dec entries destContents =
        extractZip enc dec entries destContents') ∧
    (∀ destContents : Fs,
      extractZip enc dec entries (extractZip enc dec entries destContents) =
        extractZip enc dec entries destContents) := by
  have hclear : ∀ fs : Fs, clearDest fs = [] := by
    intro fs
    unfold clearDest
    by_cases h : fs = ([] : Fs)
    · rw [if_pos h, h]
    · rw [if_neg h]
  constructor
  · intro d d'
    unfold extractZip
    rw [hclear d, hclear d']
  · intro d
    simp only [extractZip, hclear]

/-- Claim C4: after a metadata update the sync history has length at most
10, the new entry is prepended at the front (newest first), an eleventh
entry pushes out the oldest, and after 11 sequential syncs from an empty
history exactly 10 entries remain. -/
theorem sync_history_invariant :
    (∀ (m : Metadata) (downloaded : List (List Char × FileInfo))
        (now apiDate relVer : List Char),
      (updateMetadata m downloaded now apiDate relVer).syncHistory.length ≤ 10 ∧
      (updateMetadata m downloaded now apiDate relVer).syncHistory =
        ⟨now, m.releaseVersion, relVer, downloaded.map Prod.fst⟩ ::
          m.syncHistory.take 9 ∧
      (m.syncHistory.length = 10 →
        (updateMetadata m downloaded now apiDate relVer).syncHistory =
          ⟨now, m.releaseVersion, relVer, downloaded.map Prod.fst⟩ ::
            m.syncHistory.dropLast)) ∧
    (∀ (ins : List SyncInput) (m0 : Metadata), m0.syncHistory = [] →
      ins.length = 11 →
      ((ins.foldl applySync m0).syncHistory).length = 10) := by
  constructor
  · intro m downloaded now apiDate relVer
    refine ⟨?_, ?_, ?_⟩
    · rw [updateMetadata_history_length]
      omega
    · simp [updateMetadata]
    · intro hlen
      simp only [updateMetadata, List.take_succ_cons]
      rw [List.dropLast_eq_take, hlen]
  · intro ins m0 h0 hlen
    rw [foldl_applySync_history_length ins m0 (by rw [h0]; exact Nat.zero_le 10),
      h0, hlen]
    simp

/-- Claim C5 witness: on a concrete failed fetch the emitted decision is
false and the exit code is non-zero. -/
theorem update_check_fail_safe_witness :
    mainCheck false (.error ()) none =
        .ok ⟨[("has_update".data, "false".data)], 1⟩ ∧
      ¬ (⟨[("has_update".data, "false".data)], 1⟩ : CheckOutcome).exitCode = 0 :=
  ⟨(update_check_fail_safe false none ()).1,
    (update_check_fail_safe false none ()).2
      ⟨[("has_update".data, "false".data)], 1⟩
      (update_check_fail_safe false none ()).1⟩

/-- Claim C4 witness: a concrete eleventh entry evicts the oldest of ten,
and 11 concrete sequential syncs from an empty history leave 10 entries. -/
theorem sync_history_invariant_witness :
    (updateMetadata
        ⟨[], [], [], [], List.replicate 10 (⟨[], [], [], []⟩ : HistoryEntry)⟩
        [] [] [] []).syncHistory =
      ⟨[], [], [], []⟩ ::
        (List.replicate 10 (⟨[], [], [], []⟩ : HistoryEntry)).dropLast ∧
    ((List.replicate 11 (⟨[], [], [], []⟩ : SyncInput)).foldl applySync
      ⟨[], [], [], [], []⟩).syncHistory.length = 10 := by
  constructor
  · exact (sync_history_invariant.1
      ⟨[], [], [], [], List.replicate 10 (⟨[], [], [], []⟩ : HistoryEntry)⟩
      [] [] [] []).2.2 (by simp)
  · exact sync_history_invariant.2
      (List.replicate 11 (⟨[], [], [], []⟩ : SyncInput))
      ⟨[], [], [], [], []⟩ rfl (by simp)

/-- Claim C3: an entry name is corrected by re-encoding through the
single-byte code page then decoding through the double-byte encoding;
when either step is unrepresentable the name is used as given; both the
top-level and the nested extraction treat every entry name through
exactly this total repair, so extraction never aborts on a
filename-decoding failure. -/
theorem filename_repair (enc : List Char → Option ByteStr)
    (dec : ByteStr → Option (List Char)) :
    (∀ (name : List Char) (bs : ByteStr) (s : List Char),
      enc name = some bs → dec bs = some s → fixFilename enc dec name = s) ∧
    (∀ name : List Char, enc name = none → fixFilename enc dec name = name) ∧
    (∀ (name : List Char) (bs : ByteStr),
      enc name = some bs → dec bs = none → fixFilename enc dec name = name) ∧
    (∀ (entries : List ZipEntry) (destContents : Fs),
      extractZip enc dec entries destContents =
        extractZip (fun _ => none) dec
          (entries.map (fun e =>
            ⟨fixFilename enc dec e.filename, e.isDir, e.content⟩))
          destContents) ∧
    (∀ (entries : List ZipEntry) (destContents : Fs),
      extractNestedZipPreserve enc dec entries destContents =
        extractNestedZipPreserve (fun _ => none) dec
          (entries.map (fun e =>
            ⟨fixFilename enc dec e.filename, e.isDir, e.content⟩))
          destContents) := by
  have hstep : ∀ (fs : Fs) (e : ZipEntry),
      writeEntry enc dec fs e =
        writeEntry (fun _ => none) dec fs
          ⟨fixFilename enc dec e.filename, e.isDir, e.content⟩ := by
    intro fs e
    unfold writeEntry
    rfl
  have hfold : ∀ (entries : List ZipEntry) (fs : Fs),
      entries.foldl (writeEntry enc dec) fs =
        (entries.map (fun e =>
            ⟨fixFilename enc dec e.filename, e.isDir, e.content⟩)).foldl
          (writeEntry (fun _ => none) dec) fs := by
    intro entries
    induction entries with
    | nil => intro fs; rfl
    | cons e rest ih =>
      intro fs
      simp only [List.map_cons, List.foldl_cons]
      rw [← hstep fs e]
      exact ih (writeEntry enc dec fs e)
  refine ⟨?_, ?_, ?_, ?_, ?_⟩
  · intro name bs s he hd
    simp [fixFilename, he, hd]
  · intro name he
    simp [fixFilename, he]
  · intro name bs he hd
    simp [fixFilename, he, hd]
  · intro entries destContents
    unfold extractZip
    exact hfold entries (clearDest destContents)
  · intro entries destContents
    unfold extractNestedZipPreserve
    exact hfold entries destContents

/-- Claim C3 witness: a concrete repairable name is repaired, concrete
unrepresentable names fall back to the name as given. -/
theorem filename_repair_witness :
    fixFilename
        (fun n => if n = "A".data then some [65] else none)
        (fun bs => if bs = ([65] : List Nat) then some "全".data else none)
        "A".data = "全".data ∧
      fixFilename
        (fun n => if n = "A".data then some [65] else none)
        (fun bs => if bs = ([65] : List Nat) then some "全".data else none)
        "B".data = "B".data := by
  constructor
  · exact (filename_repair
      (fun n => if n = "A".data then some [65] else none)
      (fun bs => if bs = ([65] : List Nat) then some "全".data else none)).1
      "A".data [65] "全".data (by decide) (by decide)
  · exact (filename_repair
      (fun n => if n = "A".data then some [65] else none)
      (fun bs => if bs = ([65] : List Nat) then some "全".data else none)).2.1
      "B".data (by decide)

/-- Claim C10: nested extraction writes the archive's entries into the
destination without clearing it — every pre-existing binding at a path
that is no entry's (repaired) name and not the archive's own path
survives unchanged — non-colliding file entries end up present verbatim
under their internal paths, and the nested archive file itself is gone
afterwards. -/
theorem nested_extraction_frame (enc : List Char → Option ByteStr)
    (dec : ByteStr → Option (List Char)) (zipPath : List Char)
    (entries : List ZipEntry) (destContents : Fs) :
    (∀ (p : List Char) (n : Node), fsLookup destContents p = some n →
      ¬ p ∈ entries.map (fun e => fixFilename enc dec e.filename) →
      ¬ p = zipPath →
      fsLookup (nestedExtractAndDelete enc dec zipPath entries destContents) p =
        some n) ∧
    fsLookup (nestedExtractAndDelete enc dec zipPath entries destContents)
        zipPath = none ∧
    ((entries.map (fun e => fixFilename enc dec e.filename)).Nodup →
      ¬ zipPath ∈ entries.map (fun e => fixFilename enc dec e.filename) →
      ∀ e ∈ entries, e.isDir = false →
        fsLookup (nestedExtractAndDelete enc dec zipPath entries destContents)
          (fixFilename enc dec e.filename) = some (.file e.content)) := by
  refine ⟨?_, ?_, ?_⟩
  · intro p n hp hmem hzip
    unfold nestedExtractAndDelete
    rw [fsLookup_fsRemove, if_neg hzip]
    exact fsLookup_foldl_writeEntry_of_some enc dec entries destContents p n
      hp hmem
  · unfold nestedExtractAndDelete
    rw [fsLookup_fsRemove, if_pos rfl]
  · intro hnodup hzipmem e he hfile
    unfold nestedExtractAndDelete
    rw [fsLookup_fsRemove, if_neg (fun hc => hzipmem (by
      rw [← hc]
      exact List.mem_map_of_mem (fun e => fixFilename enc dec e.filename) he))]
    exact fsLookup_foldl_writeEntry_mem enc dec entries destContents hnodup
      e he hfile

/-- Claim C10 witness: extracting a concrete nested archive holding
entries under an internal directory into a destination with an unrelated
file leaves the unrelated file untouched, deposits both entries under
their internal paths, and deletes the archive file. -/
theorem nested_extraction_frame_witness :
    fsLookup
        (nestedExtractAndDelete (fun _ => none) (fun _ => none)
          "CNS_component_word.zip".data
          [⟨"parts/a.png".data, false, [1]⟩, ⟨"parts/sub/b.png".data, false, [2]⟩]
          [("keep.txt".data, .file [9]),
           ("CNS_component_word.zip".data, .file [7])])
        "keep.txt".data = some (.file [9]) ∧
      fsLookup
        (nestedExtractAndDelete (fun _ => none) (fun _ => none)
          "CNS_component_word.zip".data
          [⟨"parts/a.png".data, false, [1]⟩, ⟨"parts/sub/b.png".data, false, [2]⟩]
          [("keep.txt".data, .file [9]),
           ("CNS_component_word.zip".data, .file [7])])
        "CNS_component_word.zip".data = none ∧
      fsLookup
        (nestedExtractAndDelete (fun _ => none) (fun _ => none)
          "CNS_component_word.zip".data
          [⟨"parts/a.png".data, false, [1]⟩, ⟨"parts/sub/b.png".data, false, [2]⟩]
          [("keep.txt".data, .file [9]),
           ("CNS_component_word.zip".data, .file [7])])
        "parts/a.png".data = some (.file [1]) ∧
      fsLookup
        (nestedExtractAndDelete (fun _ => none) (fun _ => none)
          "CNS_component_word.zip".data
          [⟨"parts/a.png".data, false, [1]⟩, ⟨"parts/sub/b.png".data, false, [2]⟩]
          [("keep.txt".data, .file [9]),
           ("CNS_component_word.zip".data, .file [7])])
        "parts/sub/b.png".data = some (.file [2]) := by
  refine ⟨?_, ?_, ?_, ?_⟩
  · exact (nested_extraction_frame (fun _ => none) (fun _ => none)
      "CNS_component_word.zip".data
      [⟨"parts/a.png".data, false, [1]⟩, ⟨"parts/sub/b.png".data, false, [2]⟩]
      [("keep.txt".data, .file [9]),
       ("CNS_component_word.zip".data, .file [7])]).1
      "keep.txt".data (.file [9]) (by decide) (by decide) (by decide)
  · exact (nested_extraction_frame (fun _ => none) (fun _ => none)
      "CNS_component_word.zip".data
      [⟨"parts/a.png".data, false, [1]⟩, ⟨"parts/sub/b.png".data, false, [2]⟩]
      [("keep.txt".data, .file [9]),
       ("CNS_component_word.zip".data, .file [7])]).2.1
  · exact (nested_extraction_frame (fun _ => none) (fun _ => none)
      "CNS_component_word.zip".data
      [⟨"parts/a.png".data, false, [1]⟩, ⟨"parts/sub/b.png".data, false, [2]⟩]
      [("keep.txt".data, .file [9]),
       ("CNS_component_word.zip".data, .file [7])]).2.2
      (by decide) (by decide)
      ⟨"parts/a.png".data, false, [1]⟩ (by decide) rfl
  · exact (nested_extraction_frame (fun _ => none) (fun _ => none)
      "CNS_component_word.zip".data
      [⟨"parts/a.png".data, false, [1]⟩, ⟨"parts/sub/b.png".data, false, [2]⟩]
      [("keep.txt".data, .file [9]),
       ("CNS_component_word.zip".data, .file [7])]).2.2
      (by decide) (by decide)
      ⟨"parts/sub/b.png".data, false, [2]⟩ (by decide) rfl

/-- Claim C2 counterexample: on the line `版本：a：b` the parser returns
`a` — the segment between the first and second delimiter — while the
trimmed text after the first matching delimiter is `a：b`, so the parser
does not return the text after the first matching delimiter. -/
theorem version_line_counterexample :
    parseReleaseVersion ["版本：a：b".data] = "a".data ∧
      specTextAfterFirstDelim '：' "版本：a：b".data = "a：b".data ∧
      ¬ ("a".data : List Char) = "a：b".data := by
  exact ⟨by decide, by decide, by decide⟩

/-- Claim C2 (amended): on the first line holding a version marker the
parser returns the trimmed segment between the first occurrence of the
chosen delimiter and the next occurrence (or end of line), the chosen
delimiter being the fullwidth colon when the line contains one anywhere
and the ASCII colon otherwise; a line without a marker is skipped and an
input with no matching line yields the empty string, as does an absent
release file for the local variant; `版本：20250718` and `版本:20250718`
both yield `20250718`. -/
theorem version_line_amended :
    (∀ line : List Char,
      (containsSub markerFull line || containsSub markerAscii line) = true →
      parseVersionLine line =
        some (segmentBetweenDelims
          (if containsSub ['：'] line then '：' else ':') line)) ∧
    (∀ line : List Char,
      (containsSub markerFull line || containsSub markerAscii line) = false →
      parseVersionLine line = none) ∧
    (∀ (pre : List (List Char)) (l : List Char) (post : List (List Char))
        (v : List Char),
      (∀ l2 ∈ pre, parseVersionLine l2 = none) → parseVersionLine l = some v →
      parseReleaseVersion (pre ++ l :: post) = v) ∧
    (∀ lines : List (List Char),
      (∀ l ∈ lines, parseVersionLine l = none) →
      parseReleaseVersion lines = []) ∧
    parseReleaseVersion ["版本：20250718".data] = "20250718".data ∧
    parseReleaseVersion ["版本:20250718".data] = "20250718".data ∧
    parseReleaseVersionLocal none = [] := by
  refine ⟨?_, ?_, ?_, ?_, by decide, by decide, rfl⟩
  · intro line hmark
    unfold parseVersionLine
    rw [if_pos hmark]
    by_cases hfull : containsSub ['：'] line = true
    · rw [if_pos hfull, if_pos hfull]
      obtain ⟨tail, htail⟩ := splitChar_of_contains '：' line hfull
      rw [htail]
      rfl
    · have hfull2 : containsSub ['：'] line = false :=
        Bool.not_eq_true _ ▸ (by simpa using hfull)
      have hascii : containsSub markerAscii line = true := by
        rcases Bool.or_eq_true_iff.mp hmark with h | h
        · exfalso
          have : containsSub ['：'] line = true :=
            containsSub_of_append ['版', '本'] ['：'] line h
          rw [this] at hfull2
          cases hfull2
        · exact h
      have hcolon : containsSub [':'] line = true :=
        containsSub_of_append ['版', '本'] [':'] line hascii
      rw [if_neg hfull, if_neg hfull]
      obtain ⟨tail, htail⟩ := splitChar_of_contains ':' line hcolon
      rw [htail]
      rfl
  · intro line h
    unfold parseVersionLine
    rw [if_neg (by simp [h])]
  · intro pre
    induction pre with
    | nil =>
      intro l post v _ hv
      show parseReleaseVersion (l :: post) = v
      unfold parseReleaseVersion
      rw [hv]
    | cons p rest ih =>
      intro l post v hpre hv
      have hp : parseVersionLine p = none := hpre p (List.mem_cons_self p rest)
      show parseReleaseVersion (p :: (rest ++ l :: post)) = v
      unfold parseReleaseVersion
      rw [hp]
      exact ih l post v (fun l2 hl2 => hpre l2 (List.mem_cons_of_mem p hl2)) hv
  · intro lines hnone
    induction lines with
    | nil => rfl
    | cons l rest ih =>
      have hl : parseVersionLine l = none := hnone l (List.mem_cons_self l rest)
      show parseReleaseVersion (l :: rest) = []
      unfold parseReleaseVersion
      rw [hl]
      exact ih (fun l2 hl2 => hnone l2 (List.mem_cons_of_mem l hl2))

/-- Claim C2 witness: on the concrete ASCII-marker line `版本:20250718`
the parser returns the trimmed segment after the chosen delimiter. -/
theorem version_line_amended_witness :
    parseVersionLine "版本:20250718".data =
      some (segmentBetweenDelims
        (if containsSub ['：'] "版本:20250718".data then '：' else ':')
        "版本:20250718".data) :=
  version_line_amended.1 "版本:20250718".data (by decide)
